import Mathlib

set_option autoImplicit false

namespace Emergence

/-- Modelled from the spec: the compile-time-only category tag for items
(`Category` in §3); zero runtime representation. -/
inductive Item : Type

/-- Modelled from the spec: the compile-time-only category tag for recipes. -/
inductive Recipe : Type

/-- Modelled from the spec: the per-category identifier interner (§3, §4.1).
The interner state is the list of names in order of first interning; the
handle assigned to a name is the index of its first occurrence.  This
realises the spec invariants: `from_name` is deterministic and idempotent,
first-seen names allocate a fresh handle at the end, and no handle is ever
reassigned. -/
abbrev Interner : Type := List String

/-- Modelled from the spec: interning one name.  Returns the handle for the
name together with the (possibly grown) interner state. -/
def Interner.intern : Interner → String → Nat × Interner
  | [], name => (0, [name])
  | s :: rest, name =>
    if s = name then (0, s :: rest)
    else ((Interner.intern rest name).1 + 1, s :: (Interner.intern rest name).2)

/-- Modelled from the spec: `Id<Category>` wraps a numeric handle plus a
phantom category tag (§3). -/
structure Id (C : Type) where
  handle : Nat

instance {C : Type} : DecidableEq (Id C) := fun a b =>
  decidable_of_iff (a.handle = b.handle) (by cases a; cases b; simp)

/-- Modelled from the spec: `Id::<C>::from_name` resolves a name through the
category's interner, allocating a fresh handle on first sight (§4.1).  The
interner state is threaded explicitly. -/
def Id.from_name {C : Type} (i : Interner) (name : String) : Id C × Interner :=
  (⟨(i.intern name).1⟩, (i.intern name).2)

/-- Modelled from the spec: `Manifest<Category, Data>` is an owned mapping
from `Id<Category>` to processed `Data` with unique keys (§3, §4.2). -/
structure Manifest (C : Type) (Data : Type) where
  entries : List (Id C × Data)
  deriving DecidableEq

/-- Modelled from the spec: `Manifest::new()` returns an empty manifest. -/
def Manifest.new {C D : Type} : Manifest C D := ⟨[]⟩

/-- Key-unique association-list update: overwrites the entry for the key if
present, otherwise appends. -/
def upsert {C D : Type} : List (Id C × D) → Id C → D → List (Id C × D)
  | [], k, d => [(k, d)]
  | (k0, v) :: rest, k, d =>
    if k0 = k then (k, d) :: rest else (k0, v) :: upsert rest k d

/-- Association-list lookup by `Id`. -/
def getEntry {C D : Type} : List (Id C × D) → Id C → Option D
  | [], _ => none
  | (k0, v) :: rest, k => if k0 = k then some v else getEntry rest k

/-- Modelled from the spec: `Manifest::insert(name, data)` resolves/creates
the `Id` for `name` via the category's interner and stores `data` under it,
overwriting any prior entry for the same name (§4.2, last-write-wins). -/
def Manifest.insert {C D : Type} (m : Manifest C D) (i : Interner) (name : String)
    (d : D) : Manifest C D × Interner :=
  (⟨upsert m.entries (Id.from_name (C := C) i name).1 d⟩,
    (Id.from_name (C := C) i name).2)

/-- Modelled from the spec: `Manifest::get(id)` returns the data stored under
`id`, absent as `none` (§4.2, §7). -/
def Manifest.get {C D : Type} (m : Manifest C D) (k : Id C) : Option D :=
  getEntry m.entries k

/-- Modelled from the spec: canonical item data, `ItemData { stack_size }`
(§3); `ItemData::new` packs the stack size verbatim. -/
structure ItemData where
  stack_size : Nat
  deriving DecidableEq

/-- Modelled from the spec: `ItemData::new(stack_size)`. -/
def ItemData.new (stack_size : Nat) : ItemData := ⟨stack_size⟩

/-- The item data as seen in the original manifest file (`RawItemData`,
src/emergence_lib/src/asset_management/manifest/raw.rs lines 37-41). -/
structure RawItemData where
  stack_size : Nat
  deriving DecidableEq

/-- `impl From<&RawItemData> for ItemData` (raw.rs lines 43-47):
`Self::new(value.stack_size)`. -/
def ItemData.fromRaw (value : RawItemData) : ItemData :=
  ItemData.new value.stack_size

/-- Rust `std::time::Duration`: whole seconds plus a nanosecond part. -/
structure Duration where
  secs : Nat
  nanos : Nat
  deriving DecidableEq

/-- Rust `Duration::from_millis(ms)`: `ms / 1000` seconds and
`(ms % 1000) * 1_000_000` nanoseconds. -/
def Duration.from_millis (ms : Nat) : Duration :=
  ⟨ms / 1000, (ms % 1000) * 1000000⟩

/-- Rust `Duration::as_millis`: total whole milliseconds of the span. -/
def Duration.as_millis (d : Duration) : Nat :=
  d.secs * 1000 + d.nanos / 1000000

/-- Modelled from the spec: the out-of-scope `Energy` domain type, an opaque
numeric payload passed through unchanged (§1, §4.4). -/
structure Energy where
  amount : Int
  deriving DecidableEq

/-- Modelled from the spec: `ItemCount::new(id, count)` pairs an `Id<Item>`
with a count (§3: sequence elements of recipe inputs/outputs). -/
structure ItemCount where
  item_id : Id Item
  count : Nat
  deriving DecidableEq

/-- Modelled from the spec: `ItemCount::new`. -/
def ItemCount.new (item_id : Id Item) (count : Nat) : ItemCount := ⟨item_id, count⟩

/-- Modelled from the spec: canonical recipe data (§3):
inputs, outputs, craft duration, work-required flag, optional energy. -/
structure RecipeData where
  inputs : List ItemCount
  outputs : List ItemCount
  craft_time : Duration
  work_required : Bool
  energy : Option Energy
  deriving DecidableEq

/-- Modelled from the spec: `RecipeData::new`, packing the five processed
fields in order. -/
def RecipeData.new (inputs outputs : List ItemCount) (craft_time : Duration)
    (work_required : Bool) (energy : Option Energy) : RecipeData :=
  ⟨inputs, outputs, craft_time, work_required, energy⟩

/-- The recipe data as seen in the original manifest file (`RawRecipeData`,
raw.rs lines 81-107).  The string-keyed maps are association lists; the
optional serde-defaulted fields are `Option`s (absent field = `none`). -/
structure RawRecipeData where
  inputs : List (String × Nat)
  outputs : List (String × Nat)
  craft_time_ms : Nat
  work_required : Option Bool
  energy : Option Energy
  deriving DecidableEq

/-- The `.iter().map(|(name, count)| ItemCount::new(Id::from_name(name), *count))`
step of recipe conversion (raw.rs lines 111-121), threading the Item
interner through the successive `from_name` calls. -/
def resolveItemCounts : List (String × Nat) → Interner → List ItemCount × Interner
  | [], i => ([], i)
  | (name, count) :: rest, i =>
    (ItemCount.new (Id.from_name (C := Item) i name).1 count ::
        (resolveItemCounts rest (Id.from_name (C := Item) i name).2).1,
      (resolveItemCounts rest (Id.from_name (C := Item) i name).2).2)

/-- `impl From<&RawRecipeData> for RecipeData` (raw.rs lines 109-129):
resolve inputs, then outputs, convert the craft time from milliseconds,
default `work_required` to `false`, pass `energy` through. -/
def RecipeData.fromRaw (value : RawRecipeData) (itemI : Interner) :
    RecipeData × Interner :=
  (RecipeData.new
      (resolveItemCounts value.inputs itemI).1
      (resolveItemCounts value.outputs (resolveItemCounts value.inputs itemI).2).1
      (Duration.from_millis value.craft_time_ms)
      (value.work_required.getD false)
      value.energy,
    (resolveItemCounts value.outputs (resolveItemCounts value.inputs itemI).2).2)

/-- The shared body of the two `RawManifest::process` impls (raw.rs lines
65-75 and 147-157): fold over the raw name→rawdata entries, convert each via
the `From` conversion, and insert into the manifest.  `catI` is the interner
of the manifest's own category (used by `insert`); `auxI` is the Item
interner used by the conversion for cross-references (unused and returned
unchanged by the item conversion). -/
def processLoop {C D Raw : Type} (convert : Interner → Raw → D × Interner) :
    List (String × Raw) → Manifest C D → Interner → Interner →
      Manifest C D × Interner × Interner
  | [], m, catI, auxI => (m, catI, auxI)
  | (name, raw) :: rest, m, catI, auxI =>
    processLoop convert rest
      (m.insert catI name (convert auxI raw).1).1
      (m.insert catI name (convert auxI raw).1).2
      (convert auxI raw).2

/-- The item manifest as seen in the manifest file (`RawItemManifest`,
raw.rs lines 52-55); the string-keyed map is an association list. -/
structure RawItemManifest where
  items : List (String × RawItemData)
  deriving DecidableEq

/-- `RawItemManifest::path()` (raw.rs lines 61-63). -/
def RawItemManifest.path : String := "manifests/items.manifest.json"

/-- The item conversion as used inside `process`: `Self::Data::from(raw_data)`
touches no interner. -/
def itemConvert (i : Interner) (raw : RawItemData) : ItemData × Interner :=
  (ItemData.fromRaw raw, i)

/-- `RawItemManifest::process` (raw.rs lines 65-75): start from
`Manifest::new()` and insert the converted entries.  The Item interner is
threaded as the category interner. -/
def RawItemManifest.process (self : RawItemManifest) (itemI : Interner) :
    Manifest Item ItemData × Interner :=
  ((processLoop (C := Item) itemConvert self.items Manifest.new itemI []).1,
    (processLoop (C := Item) itemConvert self.items Manifest.new itemI []).2.1)

/-- The recipe manifest as seen in the manifest file (`RawRecipeManifest`,
raw.rs lines 134-137). -/
structure RawRecipeManifest where
  recipes : List (String × RawRecipeData)
  deriving DecidableEq

/-- `RawRecipeManifest::path()` (raw.rs lines 143-145). -/
def RawRecipeManifest.path : String := "manifests/recipes.manifest.json"

/-- The recipe conversion as used inside `process`: it reads and grows the
Item interner. -/
def recipeConvert (i : Interner) (raw : RawRecipeData) : RecipeData × Interner :=
  RecipeData.fromRaw raw i

/-- `RawRecipeManifest::process` (raw.rs lines 147-157): the Recipe category
interner is used for the recipe names; the Item interner is threaded through
the conversions. -/
def RawRecipeManifest.process (self : RawRecipeManifest) (recipeI itemI : Interner) :
    Manifest Recipe RecipeData × Interner × Interner :=
  processLoop recipeConvert self.recipes Manifest.new recipeI itemI

/-- The spec's round-trip scenario source: raw input
`{"iron": {"stack_size": 50}}`. -/
def ironManifest : RawItemManifest := ⟨[("iron", ⟨50⟩)]⟩

/-- The spec's recipe-resolution scenario item source:
`{"ore": {...}, "ingot": {...}}`. -/
def oreIngotItems : RawItemManifest := ⟨[("ore", ⟨1⟩), ("ingot", ⟨1⟩)]⟩

/-- The spec's recipe-resolution scenario recipe:
`{"inputs": {"ore": 2}, "outputs": {"ingot": 1}, "craft_time_ms": 1000}`,
with the optional fields absent. -/
def smeltRecipeRaw : RawRecipeData := ⟨[("ore", 2)], [("ingot", 1)], 1000, none, none⟩

/-- A one-recipe manifest holding the smelt scenario recipe. -/
def smeltManifest : RawRecipeManifest := ⟨[("smelt", smeltRecipeRaw)]⟩

/-- One interner state extends another when the latter only appends: handles
already assigned are never reassigned. -/
def Interner.Extends (i j : Interner) : Prop := ∃ t, j = i ++ t

theorem Interner.Extends.rfl (i : Interner) : i.Extends i := ⟨[], by simp⟩

theorem Interner.Extends.trans {i j k : Interner} (h1 : i.Extends j)
    (h2 : j.Extends k) : i.Extends k := by
  obtain ⟨t1, rfl⟩ := h1
  obtain ⟨t2, rfl⟩ := h2
  exact ⟨t1 ++ t2, by simp⟩

theorem get?_append_left {α : Type} (l t : List α) (k : Nat) (a : α)
    (h : l.get? k = some a) : (l ++ t).get? k = some a := by
  induction l generalizing k with
  | nil => simp [List.get?] at h
  | cons x xs ih =>
    cases k with
    | zero => simpa using h
    | succ k => simpa using ih k (by simpa using h)

theorem Interner.Extends.get?_eq {i j : Interner} (hij : i.Extends j) {k : Nat}
    {n : String} (h : i.get? k = some n) : j.get? k = some n := by
  obtain ⟨t, rfl⟩ := hij
  exact get?_append_left i t k n h

/-- The handle that `intern` returns resolves to the interned name in the
returned interner state. -/
theorem intern_get (i : Interner) (n : String) :
    (i.intern n).2.get? (i.intern n).1 = some n := by
  induction i with
  | nil => simp [Interner.intern]
  | cons s rest ih =>
    by_cases h : s = n
    · simp [Interner.intern, h]
    · simpa [Interner.intern, h] using ih

/-- Interning only ever appends to the interner state. -/
theorem intern_extends (i : Interner) (n : String) :
    i.Extends (i.intern n).2 := by
  induction i with
  | nil => exact ⟨[n], by simp [Interner.intern]⟩
  | cons s rest ih =>
    by_cases h : s = n
    · exact ⟨[], by simp [Interner.intern, h]⟩
    · obtain ⟨t, ht⟩ := ih
      exact ⟨t, by simp [Interner.intern, h, ht]⟩

/-- Interning a name already present leaves the interner unchanged. -/
theorem intern_of_mem (i : Interner) (n : String) (h : n ∈ i) :
    (i.intern n).2 = i := by
  induction i with
  | nil => simp at h
  | cons s rest ih =>
    by_cases hs : s = n
    · simp [Interner.intern, hs]
    · have : n ∈ rest := by
        rcases List.mem_cons.mp h with h1 | h1
        · exact absurd h1.symm hs
        · exact h1
      simp [Interner.intern, hs, ih this]

/-- The interned name is a member of the returned interner state. -/
theorem mem_intern_iff (i : Interner) (n x : String) :
    x ∈ (i.intern n).2 ↔ x ∈ i ∨ x = n := by
  induction i with
  | nil => simp [Interner.intern]
  | cons s rest ih =>
    by_cases h : s = n
    · subst h
      by_cases hx : x = s <;> simp [Interner.intern, hx]
    · simp [Interner.intern, h, ih, or_assoc]

/-- `from_name` is idempotent: re-resolving a just-interned name returns the
same handle without growing the interner. -/
theorem intern_idem (i : Interner) (n : String) :
    (i.intern n).2.intern n = ((i.intern n).1, (i.intern n).2) := by
  induction i with
  | nil => simp [Interner.intern]
  | cons s rest ih =>
    by_cases h : s = n
    · simp [Interner.intern, h]
    · simp [Interner.intern, h, ih]

/-- Resolving a name already present is stable under interner extension:
the same handle comes back and the state does not grow. -/
theorem intern_append_of_mem (i t : Interner) (n : String) (h : n ∈ i) :
    (i ++ t).intern n = ((i.intern n).1, i ++ t) := by
  induction i with
  | nil => simp at h
  | cons s rest ih =>
    by_cases hs : s = n
    · simp [Interner.intern, hs]
    · have hn : n ∈ rest := by
        rcases List.mem_cons.mp h with h1 | h1
        · exact absurd h1.symm hs
        · exact h1
      simp [Interner.intern, hs, ih hn]

theorem getEntry_upsert_self {C D : Type} (e : List (Id C × D)) (k : Id C) (d : D) :
    getEntry (upsert e k d) k = some d := by
  induction e with
  | nil => simp [upsert, getEntry]
  | cons p rest ih =>
    obtain ⟨k0, v⟩ := p
    by_cases h : k0 = k
    · simp [upsert, getEntry, h]
    · simp [upsert, getEntry, h, ih]

theorem getEntry_upsert_other {C D : Type} (e : List (Id C × D)) (k k' : Id C)
    (d : D) (h : k' ≠ k) : getEntry (upsert e k d) k' = getEntry e k' := by
  have h' : ¬(k = k') := fun hh => h hh.symm
  induction e with
  | nil => simp [upsert, getEntry, h']
  | cons p rest ih =>
    obtain ⟨k0, v⟩ := p
    by_cases h0 : k0 = k
    · subst h0
      simp [upsert, getEntry, h']
    · simp [upsert, getEntry, h0, ih]

theorem mem_upsert {C D : Type} (e : List (Id C × D)) (k : Id C) (d : D)
    (x : Id C × D) (hx : x ∈ upsert e k d) : x ∈ e ∨ x = (k, d) := by
  induction e with
  | nil => simpa [upsert] using hx
  | cons p rest ih =>
    obtain ⟨k0, v⟩ := p
    by_cases h0 : k0 = k
    · rcases List.mem_cons.mp (by simpa [upsert, h0] using hx) with h | h
      · exact Or.inr h
      · exact Or.inl (List.mem_cons_of_mem _ h)
    · rcases List.mem_cons.mp (by simpa [upsert, h0] using hx) with h | h
      · exact Or.inl (by simp [h])
      · rcases ih h with h1 | h1
        · exact Or.inl (List.mem_cons_of_mem _ h1)
        · exact Or.inr h1

theorem upsert_length_of_not_mem {C D : Type} (e : List (Id C × D)) (k : Id C)
    (d : D) (h : k ∉ e.map Prod.fst) : (upsert e k d).length = e.length + 1 := by
  induction e with
  | nil => simp [upsert]
  | cons p rest ih =>
    obtain ⟨k0, v⟩ := p
    have h0 : ¬(k0 = k) := fun hh => h (by simp [hh])
    have hr : k ∉ rest.map Prod.fst := fun hh => h (by simp [hh])
    simp [upsert, h0, ih hr]

theorem processLoop_catI_extends {C D Raw : Type}
    (convert : Interner → Raw → D × Interner) (entries : List (String × Raw)) :
    ∀ (m : Manifest C D) (catI auxI : Interner),
      catI.Extends (processLoop convert entries m catI auxI).2.1 := by
  induction entries with
  | nil => intro m catI auxI; exact Interner.Extends.rfl catI
  | cons q rest ih =>
    obtain ⟨name, raw⟩ := q
    intro m catI auxI
    simp only [processLoop, Manifest.insert, Id.from_name]
    exact (intern_extends catI name).trans (ih _ _ _)

theorem processLoop_keys_resolve {C D Raw : Type}
    (convert : Interner → Raw → D × Interner) (entries : List (String × Raw)) :
    ∀ (m : Manifest C D) (catI auxI : Interner),
      (∀ p ∈ m.entries, ∃ n, catI.get? p.1.handle = some n) →
      ∀ p ∈ (processLoop convert entries m catI auxI).1.entries,
        ∃ n, (processLoop convert entries m catI auxI).2.1.get? p.1.handle = some n := by
  induction entries with
  | nil =>
    intro m catI auxI hinv p hp
    simp only [processLoop] at hp ⊢
    exact hinv p hp
  | cons q rest ih =>
    obtain ⟨name, raw⟩ := q
    intro m catI auxI hinv
    simp only [processLoop]
    apply ih
    intro p hp
    rcases mem_upsert _ _ _ p (by simpa [Manifest.insert] using hp) with h | h
    · obtain ⟨n, hn⟩ := hinv p h
      exact ⟨n, by simpa [Manifest.insert, Id.from_name] using
        (intern_extends catI name).get?_eq hn⟩
    · refine ⟨name, ?_⟩
      rw [h]
      simpa [Manifest.insert, Id.from_name] using intern_get catI name

theorem processLoop_catI_mem {C D Raw : Type}
    (convert : Interner → Raw → D × Interner) (entries : List (String × Raw)) :
    ∀ (m : Manifest C D) (catI auxI : Interner) (x : String),
      x ∈ (processLoop convert entries m catI auxI).2.1 ↔
        x ∈ catI ∨ x ∈ entries.map Prod.fst := by
  induction entries with
  | nil => intro m catI auxI x; simp [processLoop]
  | cons q rest ih =>
    obtain ⟨name, raw⟩ := q
    intro m catI auxI x
    simp only [processLoop]
    rw [ih]
    simp [Manifest.insert, Id.from_name, mem_intern_iff, or_assoc]

theorem processLoop_get_preserved {C D Raw : Type}
    (convert : Interner → Raw → D × Interner) (entries : List (String × Raw))
    (k : Id C) (d : D) (n : String) :
    ∀ (m : Manifest C D) (catI auxI : Interner),
      m.get k = some d → catI.get? k.handle = some n →
      n ∉ entries.map Prod.fst →
      (processLoop convert entries m catI auxI).1.get k = some d := by
  induction entries with
  | nil =>
    intro m catI auxI hget _ _
    simpa [processLoop] using hget
  | cons q rest ih =>
    obtain ⟨name, raw⟩ := q
    intro m catI auxI hget hres hnot
    have hne : name ≠ n := fun h => hnot (by simp [h])
    have hkid : k ≠ (Id.from_name (C := C) catI name).1 := by
      intro h
      have h1 : (catI.intern name).2.get? k.handle = some n :=
        (intern_extends catI name).get?_eq hres
      have h2 : (catI.intern name).2.get? k.handle = some name := by
        rw [h]
        exact intern_get catI name
      rw [h1] at h2
      exact hne (Option.some.inj h2).symm
    simp only [processLoop]
    apply ih
    · show getEntry _ k = some d
      simp only [Manifest.insert]
      rw [getEntry_upsert_other _ _ _ _ hkid]
      exact hget
    · simpa [Manifest.insert, Id.from_name] using
        (intern_extends catI name).get?_eq hres
    · exact fun hmem => hnot (List.mem_cons_of_mem _ hmem)

theorem processLoop_length {C D Raw : Type}
    (convert : Interner → Raw → D × Interner) (entries : List (String × Raw)) :
    ∀ (m : Manifest C D) (catI auxI : Interner),
      (entries.map Prod.fst).Nodup →
      (∀ p ∈ m.entries, ∃ n, catI.get? p.1.handle = some n ∧
        n ∉ entries.map Prod.fst) →
      (processLoop convert entries m catI auxI).1.entries.length
        = m.entries.length + entries.length := by
  induction entries with
  | nil => intro m catI auxI _ _; simp [processLoop]
  | cons q rest ih =>
    obtain ⟨name, raw⟩ := q
    intro m catI auxI hkeys hinv
    have hid : (Id.from_name (C := C) catI name).1 ∉ m.entries.map Prod.fst := by
      intro hk
      obtain ⟨p, hp, hp1⟩ := List.mem_map.mp hk
      obtain ⟨n, hn, hnn⟩ := hinv p hp
      have h1 : (catI.intern name).2.get? p.1.handle = some n :=
        (intern_extends catI name).get?_eq hn
      have h2 : (catI.intern name).2.get? p.1.handle = some name := by
        rw [hp1]
        exact intern_get catI name
      rw [h1] at h2
      exact hnn ((Option.some.inj h2) ▸ (by simp : name ∈ ((name, raw) :: rest).map Prod.fst))
    have hrest : (rest.map Prod.fst).Nodup := (List.nodup_cons.mp (by simpa using hkeys)).2
    have hnamenot : name ∉ rest.map Prod.fst := (List.nodup_cons.mp (by simpa using hkeys)).1
    simp only [processLoop]
    rw [ih _ _ _ hrest ?_]
    · simp only [Manifest.insert]
      rw [upsert_length_of_not_mem _ _ _ hid]
      simp only [List.length_cons]
      omega
    · intro p hp
      rcases mem_upsert _ _ _ p (by simpa [Manifest.insert] using hp) with h | h
      · obtain ⟨n, hn, hnn⟩ := hinv p h
        refine ⟨n, ?_, ?_⟩
        · simpa [Manifest.insert, Id.from_name] using
            (intern_extends catI name).get?_eq hn
        · exact fun hm => hnn (List.mem_cons_of_mem _ hm)
      · refine ⟨name, ?_, hnamenot⟩
        rw [h]
        simpa [Manifest.insert, Id.from_name] using intern_get catI name

theorem processLoop_entries_sound {C D Raw : Type}
    (convert : Interner → Raw → D × Interner) (entries : List (String × Raw)) :
    ∀ (m : Manifest C D) (catI auxI : Interner),
      ∀ p ∈ (processLoop convert entries m catI auxI).1.entries,
        p ∈ m.entries ∨ ∃ q ∈ entries, ∃ aux : Interner, (convert aux q.2).1 = p.2 := by
  induction entries with
  | nil =>
    intro m catI auxI p hp
    exact Or.inl (by simpa [processLoop] using hp)
  | cons q rest ih =>
    obtain ⟨name, raw⟩ := q
    intro m catI auxI p hp
    have hp' := ih _ _ _ p (by simpa [processLoop] using hp)
    rcases hp' with h | h
    · rcases mem_upsert _ _ _ p (by simpa [Manifest.insert] using h) with h2 | h2
      · exact Or.inl h2
      · exact Or.inr ⟨(name, raw), by simp, auxI, by rw [h2]⟩
    · obtain ⟨q, hq, aux, ha⟩ := h
      exact Or.inr ⟨q, List.mem_cons_of_mem _ hq, aux, ha⟩

theorem getEntry_eq_none {C D : Type} (e : List (Id C × D)) (k : Id C)
    (h : ∀ p ∈ e, p.1 ≠ k) : getEntry e k = none := by
  induction e with
  | nil => simp [getEntry]
  | cons p rest ih =>
    obtain ⟨k0, v⟩ := p
    have h0 : ¬(k0 = k) := h (k0, v) (by simp)
    simp only [getEntry, h0, if_false]
    exact ih fun q hq => h q (List.mem_cons_of_mem _ hq)

theorem itemLoop_get_found (entries : List (String × RawItemData)) (name : String)
    (raw : RawItemData) :
    ∀ (m : Manifest Item ItemData) (catI auxI : Interner),
      (entries.map Prod.fst).Nodup → (name, raw) ∈ entries →
      (processLoop itemConvert entries m catI auxI).1.get
          (Id.from_name (C := Item)
            (processLoop itemConvert entries m catI auxI).2.1 name).1
        = some (ItemData.fromRaw raw) := by
  induction entries with
  | nil =>
    intro m catI auxI _ hmem
    simp at hmem
  | cons q rest ih =>
    obtain ⟨name0, raw0⟩ := q
    intro m catI auxI hkeys hmem
    have hrest : (rest.map Prod.fst).Nodup := (List.nodup_cons.mp (by simpa using hkeys)).2
    have hnamenot : name0 ∉ rest.map Prod.fst :=
      (List.nodup_cons.mp (by simpa using hkeys)).1
    rcases List.mem_cons.mp hmem with heq | hmem'
    · have hn : name0 = name := (Prod.mk.injEq _ _ _ _ ▸ heq.symm).1
      have hr : raw0 = raw := (Prod.mk.injEq _ _ _ _ ▸ heq.symm).2
      subst hn
      subst hr
      simp only [processLoop, itemConvert]
      have hA : ((m.insert catI name0 (ItemData.fromRaw raw0)).1).get
          (Id.from_name (C := Item) catI name0).1 = some (ItemData.fromRaw raw0) := by
        show getEntry _ _ = _
        simp only [Manifest.insert]
        exact getEntry_upsert_self _ _ _
      have hB : ((m.insert catI name0 (ItemData.fromRaw raw0)).2).get?
          (Id.from_name (C := Item) catI name0).1.handle = some name0 := by
        simpa [Manifest.insert, Id.from_name] using intern_get catI name0
      have hG := processLoop_get_preserved itemConvert rest
        (Id.from_name (C := Item) catI name0).1 (ItemData.fromRaw raw0) name0
        _ _ auxI hA hB hnamenot
      -- the final interner resolves name0 to the same handle
      have hmem1 : name0 ∈ (m.insert catI name0 (ItemData.fromRaw raw0)).2 := by
        simpa [Manifest.insert, Id.from_name] using (mem_intern_iff catI name0 name0).mpr (Or.inr rfl)
      obtain ⟨t, ht⟩ := processLoop_catI_extends itemConvert rest
        (m.insert catI name0 (ItemData.fromRaw raw0)).1
        (m.insert catI name0 (ItemData.fromRaw raw0)).2 auxI
      have hstable := intern_append_of_mem _ t name0 hmem1
      have hidem : ((m.insert catI name0 (ItemData.fromRaw raw0)).2.intern name0).1
          = (Id.from_name (C := Item) catI name0).1.handle := by
        simp only [Manifest.insert, Id.from_name]
        rw [intern_idem catI name0]
      have hfinal :
          ((processLoop itemConvert rest (m.insert catI name0 (ItemData.fromRaw raw0)).1
              (m.insert catI name0 (ItemData.fromRaw raw0)).2 auxI).2.1.intern name0).1
            = (Id.from_name (C := Item) catI name0).1.handle := by
        rw [ht, hstable, hidem]
      show (processLoop itemConvert rest _ _ _).1.get
          ⟨((processLoop itemConvert rest _ _ _).2.1.intern name0).1⟩ = _
      rw [hfinal]
      exact hG
    · simp only [processLoop, itemConvert]
      exact ih _ _ _ hrest hmem'

theorem resolveItemCounts_extends (l : List (String × Nat)) :
    ∀ i : Interner, i.Extends (resolveItemCounts l i).2 := by
  induction l with
  | nil => intro i; exact Interner.Extends.rfl i
  | cons p rest ih =>
    obtain ⟨name, c⟩ := p
    intro i
    simp only [resolveItemCounts, Id.from_name]
    exact (intern_extends i name).trans (ih _)

theorem resolveItemCounts_length (l : List (String × Nat)) :
    ∀ i : Interner, (resolveItemCounts l i).1.length = l.length := by
  induction l with
  | nil => intro i; simp [resolveItemCounts]
  | cons p rest ih =>
    obtain ⟨name, c⟩ := p
    intro i
    simp [resolveItemCounts, ih]

theorem resolveItemCounts_mem (l : List (String × Nat)) (n : String) (c : Nat) :
    ∀ i : Interner, (n, c) ∈ l →
      ∃ k : Id Item, ItemCount.new k c ∈ (resolveItemCounts l i).1 ∧
        (resolveItemCounts l i).2.get? k.handle = some n := by
  induction l with
  | nil => intro i h; simp at h
  | cons p rest ih =>
    obtain ⟨name, c0⟩ := p
    intro i hmem
    rcases List.mem_cons.mp hmem with heq | hmem'
    · have hn : name = n := (Prod.mk.injEq _ _ _ _ ▸ heq.symm).1
      have hc : c0 = c := (Prod.mk.injEq _ _ _ _ ▸ heq.symm).2
      subst hn
      subst hc
      refine ⟨(Id.from_name (C := Item) i name).1, ?_, ?_⟩
      · simp [resolveItemCounts]
      · have hext := resolveItemCounts_extends rest (Id.from_name (C := Item) i name).2
        have hg : (Id.from_name (C := Item) i name).2.get?
            (Id.from_name (C := Item) i name).1.handle = some name := by
          simpa [Id.from_name] using intern_get i name
        simpa [resolveItemCounts, Id.from_name] using hext.get?_eq hg
    · obtain ⟨k, hk1, hk2⟩ := ih (Id.from_name (C := Item) i name).2 hmem'
      exact ⟨k, by simp [resolveItemCounts, hk1], by simpa [resolveItemCounts] using hk2⟩

/-- Claim C5: for every `RawRecipeData` whose `work_required` field is absent
(`none`), `RecipeData::from` sets `work_required` to `false`; when the field
is present with value `b`, the processed `work_required` equals `b`. -/
theorem work_required_default_and_passthrough (value : RawRecipeData)
    (itemI : Interner) :
    (value.work_required = none →
      (RecipeData.fromRaw value itemI).1.work_required = false) ∧
    (∀ b : Bool, value.work_required = some b →
      (RecipeData.fromRaw value itemI).1.work_required = b) := by
  constructor
  · intro h
    simp [RecipeData.fromRaw, RecipeData.new, h]
  · intro b h
    simp [RecipeData.fromRaw, RecipeData.new, h]

/-- Witness for C5: a recipe with the flag absent processes to `false`, one
with the flag present processes to the given value. -/
theorem work_required_default_and_passthrough_witness :
    (RecipeData.fromRaw ⟨[], [], 0, none, none⟩ []).1.work_required = false ∧
    (RecipeData.fromRaw ⟨[], [], 0, some true, none⟩ []).1.work_required = true :=
  ⟨(work_required_default_and_passthrough ⟨[], [], 0, none, none⟩ []).1 rfl,
    (work_required_default_and_passthrough ⟨[], [], 0, some true, none⟩ []).2 true rfl⟩

/-- Claim C6: for every `RawRecipeData` and every value of `craft_time_ms`,
`RecipeData::from` sets the processed craft duration to a time span of
exactly `craft_time_ms` milliseconds (`Duration::from_millis`), and passes
the optional `energy` field through unchanged. -/
theorem craft_time_millis_and_energy_passthrough (value : RawRecipeData)
    (itemI : Interner) :
    (RecipeData.fromRaw value itemI).1.craft_time
        = Duration.from_millis value.craft_time_ms ∧
    ((RecipeData.fromRaw value itemI).1.craft_time).as_millis
        = value.craft_time_ms ∧
    (RecipeData.fromRaw value itemI).1.energy = value.energy := by
  refine ⟨rfl, ?_, rfl⟩
  show (Duration.from_millis value.craft_time_ms).as_millis = value.craft_time_ms
  simp only [Duration.from_millis, Duration.as_millis]
  rw [Nat.mul_div_cancel _ (by norm_num : (0 : Nat) < 1000000)]
  omega

/-- Claim C8: `RawItemManifest::path()` and `RawRecipeManifest::path()`
return the category-specific well-known relative paths, constant across all
calls. -/
theorem manifest_paths_are_category_constants :
    RawItemManifest.path = "manifests/items.manifest.json" ∧
    RawRecipeManifest.path = "manifests/recipes.manifest.json" :=
  ⟨rfl, rfl⟩

/-- Claim C9: the item conversion performs no positivity validation — for
every `RawItemData`, including one with `stack_size = 0`, `ItemData::from`
returns `ItemData::new(stack_size)` with the value passed through unchanged
and never fails. -/
theorem item_conversion_no_validation :
    (∀ v : RawItemData, ItemData.fromRaw v = ItemData.new v.stack_size ∧
      (ItemData.fromRaw v).stack_size = v.stack_size) ∧
    ItemData.fromRaw ⟨0⟩ = ItemData.new 0 :=
  ⟨fun _ => ⟨rfl, rfl⟩, rfl⟩

/-- Claim C2: processing round-trips through interning — for every raw item
entry `(name, raw)` of a single load pass with distinct names,
`get(Id::from_name(name))` on the processed manifest returns
`ItemData::from(raw)`. -/
theorem item_process_round_trip (self : RawItemManifest) (i0 : Interner)
    (hkeys : (self.items.map Prod.fst).Nodup)
    (name : String) (raw : RawItemData)
    (hmem : (name, raw) ∈ self.items) :
    (self.process i0).1.get
        (Id.from_name (C := Item) (self.process i0).2 name).1
      = some (ItemData.fromRaw raw) := by
  simpa [RawItemManifest.process] using
    itemLoop_get_found self.items name raw Manifest.new i0 [] hkeys hmem

/-- Witness for C2: the spec's scenario — processing
`{"iron": {"stack_size": 50}}` yields a manifest where
`get(from_name("iron"))` returns `ItemData { stack_size: 50 }`. -/
theorem item_process_round_trip_witness :
    (ironManifest.process []).1.get
        (Id.from_name (C := Item) (ironManifest.process []).2 "iron").1
      = some (ItemData.new 50) :=
  item_process_round_trip ironManifest [] (by simp [ironManifest]) "iron" ⟨50⟩
    (by simp [ironManifest])

/-- Claim C10: `process` inserts exactly one entry per key of the raw map:
when the raw names are distinct, the processed manifest's entry count equals
the raw entry count, for the item and the recipe manifest alike. -/
theorem process_entry_count (selfI : RawItemManifest) (selfR : RawRecipeManifest)
    (i0 rI0 itemI0 : Interner)
    (hkI : (selfI.items.map Prod.fst).Nodup)
    (hkR : (selfR.recipes.map Prod.fst).Nodup) :
    (selfI.process i0).1.entries.length = selfI.items.length ∧
    (selfR.process rI0 itemI0).1.entries.length = selfR.recipes.length := by
  constructor
  · have h := processLoop_length (C := Item) itemConvert selfI.items Manifest.new i0 []
      hkI (fun p hp => by simp [Manifest.new] at hp)
    simpa [RawItemManifest.process, Manifest.new] using h
  · have h := processLoop_length (C := Recipe) recipeConvert selfR.recipes Manifest.new
      rI0 itemI0 hkR (fun p hp => by simp [Manifest.new] at hp)
    simpa [RawRecipeManifest.process, Manifest.new] using h

/-- Witness for C10: one-entry item and recipe manifests process to
one-entry manifests. -/
theorem process_entry_count_witness :
    (ironManifest.process []).1.entries.length = 1 ∧
    (smeltManifest.process [] []).1.entries.length = 1 := by
  have h := process_entry_count ironManifest smeltManifest [] [] []
    (by simp [ironManifest]) (by simp [smeltManifest])
  simpa [ironManifest, smeltManifest] using h

/-- Claim C3: `process` is total (a plain function in this embedding, with
no failure path) and returns a manifest built from the raw entries: every
processed entry's data is the `From`-conversion of some raw entry's payload,
for the item and the recipe manifest alike. -/
theorem process_total_conversion_sound (selfI : RawItemManifest)
    (selfR : RawRecipeManifest) (i0 rI0 itemI0 : Interner) :
    (∀ p ∈ (selfI.process i0).1.entries,
      ∃ q ∈ selfI.items, p.2 = ItemData.fromRaw q.2) ∧
    (∀ p ∈ (selfR.process rI0 itemI0).1.entries,
      ∃ q ∈ selfR.recipes, ∃ aux : Interner, p.2 = (RecipeData.fromRaw q.2 aux).1) := by
  constructor
  · intro p hp
    have h := processLoop_entries_sound (C := Item) itemConvert selfI.items
      Manifest.new i0 [] p (by simpa [RawItemManifest.process] using hp)
    rcases h with h | ⟨q, hq, aux, ha⟩
    · simp [Manifest.new] at h
    · refine ⟨q, hq, ?_⟩
      simp only [itemConvert] at ha
      exact ha.symm
  · intro p hp
    have h := processLoop_entries_sound (C := Recipe) recipeConvert selfR.recipes
      Manifest.new rI0 itemI0 p (by simpa [RawRecipeManifest.process] using hp)
    rcases h with h | ⟨q, hq, aux, ha⟩
    · simp [Manifest.new] at h
    · refine ⟨q, hq, aux, ?_⟩
      simp only [recipeConvert] at ha
      exact ha.symm

/-- Witness for C3: the single processed iron entry's data is the conversion
of a raw entry of the iron source. -/
theorem process_total_conversion_sound_witness :
    ((⟨0⟩ : Id Item), ItemData.new 50) ∈ (ironManifest.process []).1.entries ∧
    ∃ q ∈ ironManifest.items,
      ((⟨0⟩ : Id Item), ItemData.new 50).2 = ItemData.fromRaw q.2 :=
  ⟨by decide,
    (process_total_conversion_sound ironManifest smeltManifest [] [] []).1
      ((⟨0⟩ : Id Item), ItemData.new 50) (by decide)⟩

/-- Claim C7: two entries named `"x"` in one source file result in exactly
one manifest entry, whose data is the second (later) entry's converted data
— last-write-wins, no error. -/
theorem duplicate_name_last_write_wins (d1 d2 : RawItemData) (i : Interner) :
    ((RawItemManifest.mk [("x", d1), ("x", d2)]).process i).1.entries.length = 1 ∧
    ((RawItemManifest.mk [("x", d1), ("x", d2)]).process i).1.get
        (Id.from_name (C := Item)
          ((RawItemManifest.mk [("x", d1), ("x", d2)]).process i).2 "x").1
      = some (ItemData.fromRaw d2) := by
  simp [RawItemManifest.process, processLoop, Manifest.insert, Manifest.new,
    Manifest.get, Id.from_name, itemConvert, upsert, getEntry, intern_idem]

/-- Claim C1: `RecipeData::from` resolves each string key of the inputs map
and of the outputs map to an `Id<Item>` via `Id::<Item>::from_name`, paired
with that key's count: each raw `(name, count)` pair yields an
`ItemCount::new(id, count)` element whose id's handle resolves back to
`name` through the Item interner, and the processed lists have the same
lengths as the raw maps. -/
theorem recipe_resolution (value : RawRecipeData) (itemI : Interner)
    (n : String) (c : Nat) :
    ((n, c) ∈ value.inputs →
      ∃ k : Id Item, ItemCount.new k c ∈ (RecipeData.fromRaw value itemI).1.inputs ∧
        (RecipeData.fromRaw value itemI).2.get? k.handle = some n) ∧
    ((n, c) ∈ value.outputs →
      ∃ k : Id Item, ItemCount.new k c ∈ (RecipeData.fromRaw value itemI).1.outputs ∧
        (RecipeData.fromRaw value itemI).2.get? k.handle = some n) ∧
    (RecipeData.fromRaw value itemI).1.inputs.length = value.inputs.length ∧
    (RecipeData.fromRaw value itemI).1.outputs.length = value.outputs.length := by
  refine ⟨?_, ?_, ?_, ?_⟩
  · intro hmem
    obtain ⟨k, hk1, hk2⟩ := resolveItemCounts_mem value.inputs n c itemI hmem
    refine ⟨k, ?_, ?_⟩
    · simpa [RecipeData.fromRaw, RecipeData.new] using hk1
    · have hext := resolveItemCounts_extends value.outputs
        (resolveItemCounts value.inputs itemI).2
      simpa [RecipeData.fromRaw, RecipeData.new] using hext.get?_eq hk2
  · intro hmem
    obtain ⟨k, hk1, hk2⟩ := resolveItemCounts_mem value.outputs n c
      (resolveItemCounts value.inputs itemI).2 hmem
    exact ⟨k, by simpa [RecipeData.fromRaw, RecipeData.new] using hk1,
      by simpa [RecipeData.fromRaw, RecipeData.new] using hk2⟩
  · simpa [RecipeData.fromRaw, RecipeData.new] using
      resolveItemCounts_length value.inputs itemI
  · simpa [RecipeData.fromRaw, RecipeData.new] using
      resolveItemCounts_length value.outputs (resolveItemCounts value.inputs itemI).2

/-- Witness for C1: the spec's smelt scenario — with Items
`{"ore", "ingot"}` processed first, the processed recipe's inputs are
exactly one pair `(Id<Item> for "ore", 2)`, and `work_required` is
`false`. -/
theorem recipe_resolution_witness :
    ("ore", 2) ∈ smeltRecipeRaw.inputs ∧
    (∃ k : Id Item,
      ItemCount.new k 2 ∈
        (RecipeData.fromRaw smeltRecipeRaw (oreIngotItems.process []).2).1.inputs ∧
      (RecipeData.fromRaw smeltRecipeRaw (oreIngotItems.process []).2).2.get? k.handle
        = some "ore") ∧
    (RecipeData.fromRaw smeltRecipeRaw (oreIngotItems.process []).2).1.inputs
      = [ItemCount.new (Id.from_name (C := Item) (oreIngotItems.process []).2 "ore").1 2] ∧
    (RecipeData.fromRaw smeltRecipeRaw (oreIngotItems.process []).2).1.work_required
      = false :=
  ⟨by decide,
    (recipe_resolution smeltRecipeRaw (oreIngotItems.process []).2 "ore" 2).1 (by decide),
    by decide, by decide⟩

/-- Claim C4: a recipe whose inputs name an item absent from the Item source
still processes: the unknown name is silently interned as an `Id<Item>`
appearing in the processed inputs, and the Item manifest's `get` at that id
returns `none` (absent) rather than failing. -/
theorem dangling_reference_absent (rawItems : RawItemManifest)
    (value : RawRecipeData) (badName : String) (c : Nat)
    (hnot : badName ∉ rawItems.items.map Prod.fst)
    (hmem : (badName, c) ∈ value.inputs) :
    ∃ k : Id Item,
      ItemCount.new k c ∈ (RecipeData.fromRaw value (rawItems.process []).2).1.inputs ∧
      (rawItems.process []).1.get k = none := by
  have hInotmem : badName ∉ (rawItems.process []).2 := by
    intro hbn
    have h := (processLoop_catI_mem (C := Item) itemConvert rawItems.items
      Manifest.new [] [] badName).mp (by simpa [RawItemManifest.process] using hbn)
    rcases h with h | h
    · simp at h
    · exact hnot h
  obtain ⟨k, hk1, hk2⟩ := resolveItemCounts_mem value.inputs badName c
    (rawItems.process []).2 hmem
  refine ⟨k, by simpa [RecipeData.fromRaw, RecipeData.new] using hk1, ?_⟩
  show getEntry _ _ = none
  apply getEntry_eq_none
  intro p hp hpk
  obtain ⟨n, hn⟩ := processLoop_keys_resolve (C := Item) itemConvert rawItems.items
    Manifest.new [] [] (fun q hq => by simp [Manifest.new] at hq) p
    (by simpa [RawItemManifest.process] using hp)
  have hnmem : n ∈ (rawItems.process []).2 := by
    have hg : (rawItems.process []).2.get? p.1.handle = some n := by
      simpa [RawItemManifest.process] using hn
    exact List.get?_mem hg
  have hext := resolveItemCounts_extends value.inputs (rawItems.process []).2
  have h1 : (resolveItemCounts value.inputs (rawItems.process []).2).2.get?
      p.1.handle = some n :=
    hext.get?_eq (by simpa [RawItemManifest.process] using hn)
  rw [hpk] at h1
  rw [h1] at hk2
  exact hInotmem ((Option.some.inj hk2) ▸ hnmem)

/-- Witness for C4: a recipe consuming 3 "coal" against the ore/ingot item
source — "coal" is not an item name, yet resolution produces an id and the
item manifest's `get` at it is absent. -/
theorem dangling_reference_absent_witness :
    "coal" ∉ oreIngotItems.items.map Prod.fst ∧
    ∃ k : Id Item,
      ItemCount.new k 3 ∈
        (RecipeData.fromRaw ⟨[("coal", 3)], [], 5, none, none⟩
          (oreIngotItems.process []).2).1.inputs ∧
      (oreIngotItems.process []).1.get k = none :=
  ⟨by decide,
    dangling_reference_absent oreIngotItems ⟨[("coal", 3)], [], 5, none, none⟩
      "coal" 3 (by decide) (by decide)⟩

end Emergence
